import Mathlib

/-!
# NTONIX gateway — verification of the core subsystems

Shallow embedding of the NTONIX reverse proxy core (C++), together with
theorems checking the natural-language specification against it.

Embedded components:
* `src/src/balancer/load_balancer.cpp` — smooth weighted round-robin selection
* `src/src/cache/lru_cache.cpp` — bounded LRU + TTL cache
* `balancer/health_checker.cpp` — hysteretic health state machine
* `proxy/stream_pipe.cpp` — streaming-response classifier
* `src/src/main.cpp` — HTTP request routing

Machine integers are modelled as `Nat`/`Int`; monotonic clock instants as
`Nat` seconds passed explicitly to the operations that sample the clock.
-/

namespace Ntonix

/-! ## Configuration types (`src/src/config/config.hpp`) -/

/-- `config::BackendConfig`: host, port, weight. -/
structure BackendConfig where
  host : String
  port : Nat
  weight : Nat
deriving DecidableEq, Repr

/-! ## Load balancer (`src/src/balancer/load_balancer.cpp`)

`BackendState` pairs a backend's config with its SWRR accumulator
`current_weight` (an `i64` in the source, modelled as `Int`). -/

structure BackendState where
  config : BackendConfig
  current_weight : Int
deriving DecidableEq, Repr

/-- Total weight of the backends the health view reports healthy
(the `healthy_total` accumulation loop of `select_backend`). -/
def healthyTotal (healthy : BackendConfig → Bool) (bs : List BackendState) : Nat :=
  ((bs.filter (fun b => healthy b.config)).map (fun b => b.config.weight)).sum

/-- The selection scan of `LoadBalancer::select_backend`: walk the snapshot,
add each healthy backend's weight to its accumulator, and track the first
index attaining the maximal updated accumulator (the source compares with
strict `>` against the running maximum, so ties keep the earliest index).
Returns the updated snapshot and the best `(index, value)` seen. -/
def selectScan (healthy : BackendConfig → Bool) :
    List BackendState → Nat → Option (Nat × Int) → List BackendState × Option (Nat × Int)
  | [], _, best => ([], best)
  | b :: rest, i, best =>
    if healthy b.config then
      let nw : Int := b.current_weight + (b.config.weight : Int)
      let best' : Option (Nat × Int) :=
        match best with
        | none => some (i, nw)
        | some (j, m) => if nw > m then some (i, nw) else some (j, m)
      let r := selectScan healthy rest (i + 1) best'
      ({ b with current_weight := nw } :: r.1, r.2)
    else
      let r := selectScan healthy rest (i + 1) best
      (b :: r.1, r.2)

/-- Subtract `s` from the accumulator of the backend at position `j`
(`selected->current_weight.fetch_sub(healthy_total)`). -/
def decAt : List BackendState → Nat → Int → List BackendState
  | [], _, _ => []
  | b :: rest, 0, s => { b with current_weight := b.current_weight - s } :: rest
  | b :: rest, j + 1, s => b :: decAt rest j s

/-- `LoadBalancer::select_backend`, sequential semantics: returns the chosen
index (if any) and the snapshot with its accumulators updated. -/
def select_backend (healthy : BackendConfig → Bool) (bs : List BackendState) :
    Option Nat × List BackendState :=
  if bs.isEmpty then (none, bs)
  else if healthyTotal healthy bs = 0 then (none, bs)
  else
    let r := selectScan healthy bs 0 none
    match r.2 with
    | none => (none, r.1)
    | some (j, _) => (some j, decAt r.1 j (healthyTotal healthy bs))

/-- One selection step: the updated snapshot only. -/
def lbStep (healthy : BackendConfig → Bool) (bs : List BackendState) : List BackendState :=
  (select_backend healthy bs).2

/-- Snapshot after `n` sequential `select_backend` calls. -/
def lbStateAt (healthy : BackendConfig → Bool) (bs : List BackendState) (n : Nat) :
    List BackendState :=
  (lbStep healthy)^[n] bs

/-- The index chosen by the `(n+1)`-st sequential `select_backend` call. -/
def lbSelAt (healthy : BackendConfig → Bool) (bs : List BackendState) (n : Nat) : Option Nat :=
  (select_backend healthy (lbStateAt healthy bs n)).1

/-- The list of indexes returned by `n` consecutive `select_backend` calls. -/
def lbRun (healthy : BackendConfig → Bool) (bs : List BackendState) (n : Nat) :
    List (Option Nat) :=
  (List.range n).map (lbSelAt healthy bs)

/-- How many of the first `n` selections returned backend `i`. -/
def lbCount (healthy : BackendConfig → Bool) (bs : List BackendState) (n i : Nat) : Nat :=
  ((List.range n).filter (fun j => lbSelAt healthy bs j = some i)).length

/-- A health view that reports every backend healthy. -/
def allHealthy : BackendConfig → Bool := fun _ => true

/-- Fresh dispatcher entry for a config: accumulator starts at 0
(`LoadBalancer::set_backends`). -/
def mkState (c : BackendConfig) : BackendState :=
  { config := c, current_weight := 0 }

/-- The three backend configs with weights `[5, 1, 1]` used by the spec's
SWRR examples. -/
def cfgs511 : List BackendConfig :=
  [⟨"b1", 9001, 5⟩, ⟨"b2", 9002, 1⟩, ⟨"b3", 9003, 1⟩]

/-- The `[5, 1, 1]` fleet with accumulators starting at 0. -/
def fleet511 : List BackendState :=
  cfgs511.map mkState

/-- Two-backend fixture: only the backend on port 2 is reported healthy. -/
def bsW : List BackendState :=
  [mkState ⟨"u", 1, 1⟩, mkState ⟨"h", 2, 1⟩]

/-- Health view reporting only port 2 healthy. -/
def hW : BackendConfig → Bool := fun c => decide (c.port = 2)

/-- Health view reporting every backend down. -/
def hU : BackendConfig → Bool := fun _ => false

end Ntonix

namespace Ntonix

/-! ## LRU cache (`src/src/cache/lru_cache.cpp`, `cache/lru_cache.hpp`)

Monotonic clock instants are `Nat` seconds, passed to `get`/`put` as the
`now` argument (`std::chrono::steady_clock::now()` in the source). -/

/-- `cache::CacheKey`: a 64-bit hash value. -/
structure CacheKey where
  hash : Nat
deriving DecidableEq, Repr

/-- `cache::CacheEntry`. -/
structure CacheEntry where
  body : String
  content_type : String
  size_bytes : Nat
  created_at : Nat
  last_access : Nat
  hit_count : Nat
deriving DecidableEq, Repr

/-- `cache::LruCacheConfig` (`ttl` in seconds). -/
structure LruCacheConfig where
  max_size_bytes : Nat
  ttl : Nat
  enabled : Bool
deriving DecidableEq, Repr

/-- `cache::LruCache` state.  `lru_list` holds the nodes, front = most
recently used, back = least recently used; the hash index `cache_map_` is
represented by key lookup in the same list (the source keeps exactly one
node per key). -/
structure LruCache where
  config : LruCacheConfig
  lru_list : List (CacheKey × CacheEntry)
  hits : Nat
  misses : Nat
  evictions : Nat
  expired : Nat
  current_size_bytes : Nat
deriving DecidableEq, Repr

/-- `cache_map_.find(key)`: the entry stored under `key`, if any. -/
def findEntry (l : List (CacheKey × CacheEntry)) (k : CacheKey) : Option CacheEntry :=
  (l.find? (fun p => p.1 == k)).map (fun p => p.2)

/-- Remove the node stored under `key` (`lru_list_.erase(it)`). -/
def eraseKey (l : List (CacheKey × CacheEntry)) (k : CacheKey) :
    List (CacheKey × CacheEntry) :=
  l.eraseP (fun p => p.1 == k)

/-- `LruCache::is_expired`: the age in whole seconds exceeds the ttl. -/
def is_expired (cfg : LruCacheConfig) (now : Nat) (e : CacheEntry) : Bool :=
  decide (cfg.ttl < now - e.created_at)

/-- `LruCache::get`: optional entry plus the updated cache state. -/
def cacheGet (now : Nat) (key : CacheKey) (c : LruCache) : Option CacheEntry × LruCache :=
  if !c.config.enabled then (none, c)
  else
    match findEntry c.lru_list key with
    | none => (none, { c with misses := c.misses + 1 })
    | some e =>
      if is_expired c.config now e then
        (none,
         { c with
            current_size_bytes := c.current_size_bytes - e.size_bytes,
            lru_list := eraseKey c.lru_list key,
            expired := c.expired + 1,
            misses := c.misses + 1 })
      else
        (some { e with hit_count := e.hit_count + 1, last_access := now },
         { c with hits := c.hits + 1 })

/-- The entry `LruCache::put` stores. -/
def mkEntry (now : Nat) (body ct : String) : CacheEntry :=
  { body := body, content_type := ct, size_bytes := body.length,
    created_at := now, last_access := now, hit_count := 0 }

/-- Drop the last `n` nodes, one at a time. -/
def dropLastN : Nat → List (CacheKey × CacheEntry) → List (CacheKey × CacheEntry)
  | 0, l => l
  | n + 1, l => dropLastN n l.dropLast

/-- Body of `LruCache::evict_if_needed`, with an explicit iteration bound.
Each iteration pops one node, so any bound of at least the list length
makes the recursion equivalent to the source's `while` loop. -/
def evictGo (maxB : Nat) : Nat → List (CacheKey × CacheEntry) → Nat → Nat →
    List (CacheKey × CacheEntry) × Nat × Nat
  | 0, l, cur, ev => (l, cur, ev)
  | fuel + 1, l, cur, ev =>
    if h : maxB < cur ∧ l ≠ [] then
      evictGo maxB fuel l.dropLast (cur - (l.getLast h.2).2.size_bytes) (ev + 1)
    else (l, cur, ev)

/-- `LruCache::evict_if_needed`: pop the least-recently-used tail node while
the running size exceeds the limit.  Arguments mirror the fields the loop
mutates: the list, `current_size_bytes_` and `evictions_`. -/
def evictLoop (maxB : Nat) (l : List (CacheKey × CacheEntry)) (cur ev : Nat) :
    List (CacheKey × CacheEntry) × Nat × Nat :=
  evictGo maxB l.length l cur ev

/-- `LruCache::put`. -/
def cachePut (now : Nat) (key : CacheKey) (body ct : String) (c : LruCache) : LruCache :=
  if !c.config.enabled then c
  else if body.length > c.config.max_size_bytes then c
  else
    let c1 :=
      match findEntry c.lru_list key with
      | some old =>
        { c with
            lru_list := (key, mkEntry now body ct) :: eraseKey c.lru_list key,
            current_size_bytes := c.current_size_bytes - old.size_bytes + body.length }
      | none =>
        { c with
            lru_list := (key, mkEntry now body ct) :: c.lru_list,
            current_size_bytes := c.current_size_bytes + body.length }
    let r := evictLoop c1.config.max_size_bytes c1.lru_list c1.current_size_bytes c1.evictions
    { c1 with lru_list := r.1, current_size_bytes := r.2.1, evictions := r.2.2 }

/-- `LruCache::remove`. -/
def cacheRemove (key : CacheKey) (c : LruCache) : Bool × LruCache :=
  match findEntry c.lru_list key with
  | none => (false, c)
  | some e =>
    (true,
     { c with
        current_size_bytes := c.current_size_bytes - e.size_bytes,
        lru_list := eraseKey c.lru_list key })

/-- `LruCache::clear`. -/
def cacheClear (c : LruCache) : LruCache :=
  { c with lru_list := [], current_size_bytes := 0 }

/-- `LruCache::update_config` (only `max_size_bytes` and `ttl` change; it
then evicts if the new cap is smaller). -/
def cacheUpdateConfig (maxB ttl : Nat) (c : LruCache) : LruCache :=
  let c1 := { c with config := { c.config with max_size_bytes := maxB, ttl := ttl } }
  let r := evictLoop maxB c1.lru_list c1.current_size_bytes c1.evictions
  { c1 with lru_list := r.1, current_size_bytes := r.2.1, evictions := r.2.2 }

/-- One public cache operation. -/
inductive CacheOp where
  | opGet (now : Nat) (key : CacheKey)
  | opPut (now : Nat) (key : CacheKey) (body ct : String)
  | opRemove (key : CacheKey)
  | opClear
  | opUpdateConfig (maxB ttl : Nat)

/-- Apply one operation to the cache state. -/
def applyOp (c : LruCache) : CacheOp → LruCache
  | .opGet now key => (cacheGet now key c).2
  | .opPut now key body ct => cachePut now key body ct c
  | .opRemove key => (cacheRemove key c).2
  | .opClear => cacheClear c
  | .opUpdateConfig m t => cacheUpdateConfig m t c

/-- Freshly constructed cache (`LruCache::LruCache`). -/
def initCache (cfg : LruCacheConfig) : LruCache :=
  { config := cfg, lru_list := [], hits := 0, misses := 0, evictions := 0,
    expired := 0, current_size_bytes := 0 }

/-- The cache state after a sequence of operations. -/
def runOps (cfg : LruCacheConfig) (ops : List CacheOp) : LruCache :=
  ops.foldl applyOp (initCache cfg)

/-- Total stored size, `Σ entries.size_bytes`. -/
def sumSizes (l : List (CacheKey × CacheEntry)) : Nat :=
  (l.map (fun p => p.2.size_bytes)).sum

/-- Size-accounting invariant: the size counter tracks the stored total
and the total is within the configured limit. -/
def CacheWF (c : LruCache) : Prop :=
  c.current_size_bytes = sumSizes c.lru_list ∧
  sumSizes c.lru_list ≤ c.config.max_size_bytes

/-- C4 witness fixture: 3-byte cache. -/
def cfgC4 : LruCacheConfig := { max_size_bytes := 3, ttl := 100, enabled := true }

/-- C4 witness fixture: one 2-byte entry already stored. -/
def opsC4 : List CacheOp := [CacheOp.opPut 0 ⟨1⟩ "ab" "t"]

/-- C5/C10 witness fixture: an entry created at time 0. -/
def entC5 : CacheEntry := mkEntry 0 "hello" "text/plain"

/-- C5 witness fixture: enabled cache holding `entC5` under key 5. -/
def stC5 : LruCache :=
  { config := { max_size_bytes := 100, ttl := 10, enabled := true },
    lru_list := [(⟨5⟩, entC5)], hits := 0, misses := 0, evictions := 0,
    expired := 0, current_size_bytes := 5 }

/-- C10 witness fixture: the same cache, disabled. -/
def stDis : LruCache :=
  { stC5 with config := { max_size_bytes := 100, ttl := 10, enabled := false } }

/-! ### Analysis helpers for the SWRR loop

`selectScan` interleaves two things: updating every healthy accumulator and
tracking the first running maximum.  The helpers below separate the two so
that they can be reasoned about independently; `selectScan_eq` relates them
back to the faithful definition when every backend is healthy. -/

/-- Add each backend's weight to its accumulator (the `fetch_add` pass,
restricted to the all-healthy case). -/
def addW (bs : List BackendState) : List BackendState :=
  bs.map fun b => { b with current_weight := b.current_weight + (b.config.weight : Int) }

/-- The updated accumulator values the scan compares. -/
def cwVals (bs : List BackendState) : List Int :=
  bs.map fun b => b.current_weight + (b.config.weight : Int)

/-- First-maximum fold: `bestAux i best vs` scans `vs` (whose head sits at
absolute index `i`) keeping the earliest strictly-greatest value. -/
def bestAux : Nat → Option (Nat × Int) → List Int → Option (Nat × Int)
  | _, best, [] => best
  | i, best, v :: rest =>
    bestAux (i + 1)
      (match best with
       | none => some (i, v)
       | some (j, m) => if v > m then some (i, v) else some (j, m)) rest

/-- Accumulator of the backend at position `i` (0 when out of range). -/
def cwAt : List BackendState → Nat → Int
  | [], _ => 0
  | b :: _, 0 => b.current_weight
  | _ :: rest, i + 1 => cwAt rest i

/-- Weight of the backend at position `i` (0 when out of range). -/
def wAt : List BackendState → Nat → Nat
  | [], _ => 0
  | b :: _, 0 => b.config.weight
  | _ :: rest, i + 1 => wAt rest i

/-- Total configured weight of a snapshot. -/
def totW (bs : List BackendState) : Nat :=
  (bs.map (fun b => b.config.weight)).sum

/-- Sum of all accumulators. -/
def sumCW (bs : List BackendState) : Int :=
  (bs.map (fun b => b.current_weight)).sum

/-- Inductive invariant of the SWRR state: accumulators sum to zero and each
stays at or above `1 - S`. -/
def LBInv (S : Nat) (bs : List BackendState) : Prop :=
  sumCW bs = 0 ∧ ∀ i < bs.length, 1 - (S : Int) ≤ cwAt bs i

/-- The spec's `S`: sum of the configured weights. -/
def weightSum (cfgs : List BackendConfig) : Nat :=
  (cfgs.map (fun c => c.weight)).sum

end Ntonix

namespace Ntonix

/-! ## Health tracker (`balancer/health_checker.cpp`, `health_checker.hpp`) -/

/-- The health `enum class BackendState` of `health_checker.hpp` (named
apart from the load balancer's `BackendState` struct). -/
inductive HealthState where
  | healthy
  | unhealthy
  | draining
deriving DecidableEq, Repr

/-- `balancer::BackendHealth` (the two clock fields, which no claim
mentions, are omitted). -/
structure BackendHealth where
  config : BackendConfig
  state : HealthState
  consecutive_failures : Nat
  consecutive_successes : Nat
deriving DecidableEq, Repr

/-- The two thresholds of `balancer::HealthCheckConfig`. -/
structure HealthCheckConfig where
  unhealthy_threshold : Nat
  healthy_threshold : Nat
deriving DecidableEq, Repr

/-- The header's defaults: `unhealthy_threshold{3}`, `healthy_threshold{2}`. -/
def defaultHealthConfig : HealthCheckConfig :=
  { unhealthy_threshold := 3, healthy_threshold := 2 }

/-- `HealthChecker::backend_key`. -/
def backend_key (b : BackendConfig) : String :=
  b.host ++ ":" ++ toString b.port

/-- A newly observed backend starts healthy with zeroed counters
(`HealthChecker::set_backends`). -/
def freshHealth (b : BackendConfig) : BackendHealth :=
  { config := b, state := HealthState.healthy,
    consecutive_failures := 0, consecutive_successes := 0 }

/-- `HealthChecker::handle_check_result` on one backend's record: returns
the updated record and the `(old, new)` pair handed to the state-change
callbacks when a transition fired. -/
def handle_check_result (cfg : HealthCheckConfig) (h : BackendHealth) (success : Bool) :
    BackendHealth × Option (HealthState × HealthState) :=
  let h1 :=
    if success then
      { h with consecutive_failures := 0,
               consecutive_successes := h.consecutive_successes + 1 }
    else
      { h with consecutive_successes := 0,
               consecutive_failures := h.consecutive_failures + 1 }
  let new_state :=
    if success then
      if h.state = HealthState.unhealthy ∧
          cfg.healthy_threshold ≤ h1.consecutive_successes
      then HealthState.healthy else h.state
    else
      if h.state = HealthState.healthy ∧
          cfg.unhealthy_threshold ≤ h1.consecutive_failures
      then HealthState.unhealthy else h.state
  if new_state ≠ h.state then
    ({ h1 with state := new_state }, some (h.state, new_state))
  else (h1, none)

/-- `unordered_map` assignment `m[k] = v`: overwrite or append. -/
def insertHealth (m : List (String × BackendHealth)) (k : String) (v : BackendHealth) :
    List (String × BackendHealth) :=
  match m with
  | [] => [(k, v)]
  | (k', v') :: rest => if k' = k then (k, v) :: rest else (k', v') :: insertHealth rest k v

/-- `unordered_map` lookup `m.find(k)`. -/
def lookupHealth (m : List (String × BackendHealth)) (k : String) : Option BackendHealth :=
  match m with
  | [] => none
  | (k', v) :: rest => if k' = k then some v else lookupHealth rest k

/-- `HealthChecker::set_backends`: rebuild the map from the new backend
list, preserving existing records (with refreshed config) and admitting
new backends as healthy; absent keys are dropped. -/
def set_backends (old : List (String × BackendHealth)) (backends : List BackendConfig) :
    List (String × BackendHealth) :=
  backends.foldl
    (fun acc b =>
      match lookupHealth old (backend_key b) with
      | some h => insertHealth acc (backend_key b) { h with config := b }
      | none => insertHealth acc (backend_key b) (freshHealth b))
    []

/-- The last config in `backends` whose key is `k` (with `unordered_map`
assignment, the last write wins). -/
def findLastCfg (l : List BackendConfig) (k : String) : Option BackendConfig :=
  match l with
  | [] => none
  | b :: rest =>
    match findLastCfg rest k with
    | some x => some x
    | none => if backend_key b = k then some b else none

end Ntonix

namespace Ntonix

/-! ## Streaming classifier (`proxy/stream_pipe.cpp`) -/

/-- `needle` begins `hay` (character lists). -/
def beginsWith : List Char → List Char → Bool
  | [], _ => true
  | _ :: _, [] => false
  | a :: as, b :: bs => decide (a = b) && beginsWith as bs

/-- Substring scan over the tails of `hay`. -/
def hasSubAux (needle : List Char) : List Char → Bool
  | [] => needle.isEmpty
  | b :: bs => beginsWith needle (b :: bs) || hasSubAux needle bs

/-- `hay.find(needle) != std::string::npos`. -/
def strHasSub (hay needle : String) : Bool :=
  hasSubAux needle.data hay.data

/-- The upstream response-header fields `is_streaming_response` consults:
the status code and the optional `Content-Type` and `Transfer-Encoding`
header values (`header.find(...)`). -/
structure RespHeader where
  status : Nat
  content_type : Option String
  transfer_encoding : Option String
deriving DecidableEq, Repr

/-- `StreamPipe::is_streaming_response`. -/
def is_streaming_response (h : RespHeader) : Bool :=
  if h.status ≠ 200 then false
  else if (match h.content_type with
           | some ct => strHasSub ct "text/event-stream"
           | none => false) then true
  else
    match h.transfer_encoding with
    | some te =>
      if strHasSub te "chunked" then
        match h.content_type with
        | some ct => if strHasSub ct "application/json" then false else true
        | none => true
      else false
    | none => false

/-- The status-independent part of the spec's classification: `Content-Type`
contains `text/event-stream`, or `Transfer-Encoding` contains `chunked` and
the `Content-Type` does not indicate JSON. -/
def streamingContent (h : RespHeader) : Bool :=
  (match h.content_type with
   | some ct => strHasSub ct "text/event-stream"
   | none => false) ||
  ((match h.transfer_encoding with
    | some te => strHasSub te "chunked"
    | none => false) &&
   !(match h.content_type with
     | some ct => strHasSub ct "application/json"
     | none => false))

/-- The claim's classifier, written from the spec's words: status 2xx AND
the streaming content condition. -/
def claimStreaming (h : RespHeader) : Bool :=
  (decide (200 ≤ h.status) && decide (h.status < 300)) && streamingContent h

/-- The amended classifier: status exactly 200 AND the streaming content
condition. -/
def amendedStreaming (h : RespHeader) : Bool :=
  decide (h.status = 200) && streamingContent h

/-- C8 counterexample input: a 206 SSE response header. -/
def hdr206 : RespHeader :=
  { status := 206, content_type := some "text/event-stream", transfer_encoding := none }

end Ntonix

namespace Ntonix

/-! ## HTTP request routing (`src/src/main.cpp`, `request_handler`) -/

/-- `boost::beast::http::verb`, restricted to what the routes compare. -/
inductive HttpMethod where
  | get
  | post
  | other
deriving DecidableEq, Repr

/-- The request fields the router consults. -/
structure HttpRequest where
  method : HttpMethod
  target : String
  host : String
  content_type : String
  body : String
deriving DecidableEq, Repr

/-- `ntonix::server::HttpResponse`. -/
structure HttpResponse where
  status : Nat
  content_type : String
  body : String
  headers : List (String × String)
deriving DecidableEq, Repr

/-- The `GET /` gateway-info JSON of `main.cpp`. -/
def rootInfoBody : String :=
  "\x7b\n  \"name\": \"NTONIX\",\n  \"version\": \"0.1.0\",\n  \"description\": \"High-Performance AI Inference Gateway\",\n  \"endpoints\": \x7b\n    \"health\": \"/health\",\n    \"cache_stats\": \"/cache/stats\",\n    \"chat_completions\": \"/v1/chat/completions\"\n  \x7d\n\x7d"

/-- The `request_handler` lambda of `main.cpp`: the route table for
non-streaming requests.  The `/cache/stats` body and the
`/v1/chat/completions` branch depend on live gateway state (cache,
balancer, forwarder); they enter as the `statsBody` and `chat`
parameters. -/
def request_handler (statsBody : String) (chat : HttpRequest → HttpResponse)
    (req : HttpRequest) : HttpResponse :=
  if req.target = "/health" ∧ req.method = HttpMethod.get then
    { status := 200, content_type := "application/json",
      body := "\x7b\"status\": \"healthy\"\x7d", headers := [] }
  else if req.target = "/cache/stats" ∧ req.method = HttpMethod.get then
    { status := 200, content_type := "application/json", body := statsBody, headers := [] }
  else if req.target = "/v1/chat/completions" ∧ req.method = HttpMethod.post then
    chat req
  else if req.target = "/" ∧ req.method = HttpMethod.get then
    { status := 200, content_type := "application/json", body := rootInfoBody, headers := [] }
  else
    { status := 404, content_type := "application/json",
      body := "\x7b\"error\": \"Not found\"\x7d", headers := [] }

/-- C9 failing input: a plain GET to `/metrics`. -/
def reqMetrics : HttpRequest :=
  { method := HttpMethod.get, target := "/metrics", host := "", content_type := "",
    body := "" }

end Ntonix

namespace Ntonix

/-! ## Lemmas about the SWRR selection loop -/

theorem selectScan_eq (healthy : BackendConfig → Bool) :
    ∀ (bs : List BackendState) (i : Nat) (best : Option (Nat × Int)),
      (∀ b ∈ bs, healthy b.config = true) →
      selectScan healthy bs i best = (addW bs, bestAux i best (cwVals bs)) := by
  intro bs
  induction bs with
  | nil => intro i best _; rfl
  | cons b rest ih =>
    intro i best hall
    have hb : healthy b.config = true := hall b (List.mem_cons_self b rest)
    have hrest : ∀ x ∈ rest, healthy x.config = true :=
      fun x hx => hall x (List.mem_cons_of_mem b hx)
    simp only [selectScan, hb, if_true, addW, cwVals, List.map_cons, bestAux]
    rw [ih (i + 1) _ hrest]
    rfl

theorem bestAux_isSome :
    ∀ (l : List Int) (i : Nat) (best : Option (Nat × Int)),
      best.isSome = true ∨ l ≠ [] → (bestAux i best l).isSome = true := by
  intro l
  induction l with
  | nil =>
    intro i best h
    rcases h with h | h
    · simpa [bestAux] using h
    · exact absurd rfl h
  | cons v rest ih =>
    intro i best _
    simp only [bestAux]
    apply ih
    left
    rcases best with _ | ⟨j, m⟩
    · rfl
    · by_cases hv : v > m <;> simp [hv]

theorem bestAux_src :
    ∀ (l : List Int) (i : Nat) (best : Option (Nat × Int)) (j : Nat) (m : Int),
      bestAux i best l = some (j, m) →
      best = some (j, m) ∨ ∃ t, ∃ ht : t < l.length, j = i + t ∧ l.get ⟨t, ht⟩ = m := by
  intro l
  induction l with
  | nil =>
    intro i best j m h
    exact Or.inl h
  | cons v rest ih =>
    intro i best j m h
    simp only [bestAux] at h
    rcases ih (i + 1) _ j m h with h' | ⟨t, ht, hj, hm⟩
    · rcases best with _ | ⟨j₀, m₀⟩
      · simp only [Option.some.injEq, Prod.mk.injEq] at h'
        refine Or.inr ⟨0, by simp, ?_, ?_⟩
        · omega
        · simpa using h'.2
      · by_cases hv : v > m₀
        · simp only [hv, if_true, Option.some.injEq, Prod.mk.injEq] at h'
          refine Or.inr ⟨0, by simp, ?_, ?_⟩
          · omega
          · simpa using h'.2
        · simp only [hv, if_false] at h'
          exact Or.inl h'
    · refine Or.inr ⟨t + 1, by simpa using Nat.succ_lt_succ ht, by omega, ?_⟩
      simpa using hm

theorem bestAux_ge :
    ∀ (l : List Int) (i : Nat) (best : Option (Nat × Int)) (j : Nat) (m : Int),
      bestAux i best l = some (j, m) →
      (∀ v ∈ l, v ≤ m) ∧ (∀ j₀ m₀, best = some (j₀, m₀) → m₀ ≤ m) := by
  intro l
  induction l with
  | nil =>
    intro i best j m h
    refine ⟨by simp, ?_⟩
    intro j₀ m₀ hb
    rw [hb] at h
    simp only [bestAux, Option.some.injEq, Prod.mk.injEq] at h
    exact le_of_eq h.2
  | cons v rest ih =>
    intro i best j m h
    simp only [bestAux] at h
    have hrec := ih (i + 1) _ j m h
    rcases best with _ | ⟨j₀, m₀⟩
    · have hv : v ≤ m := hrec.2 i v rfl
      refine ⟨?_, by simp⟩
      intro x hx
      rcases List.mem_cons.1 hx with hx | hx
      · exact hx ▸ hv
      · exact hrec.1 x hx
    · by_cases hgt : v > m₀
      · simp only [hgt, if_true] at hrec
        have hv : v ≤ m := hrec.2 i v rfl
        refine ⟨?_, ?_⟩
        · intro x hx
          rcases List.mem_cons.1 hx with hx | hx
          · exact hx ▸ hv
          · exact hrec.1 x hx
        · intro a b hab
          simp only [Option.some.injEq, Prod.mk.injEq] at hab
          exact hab.2 ▸ le_trans (le_of_lt hgt) hv
      · simp only [hgt, if_false] at hrec
        have hm₀ : m₀ ≤ m := hrec.2 j₀ m₀ rfl
        refine ⟨?_, ?_⟩
        · intro x hx
          rcases List.mem_cons.1 hx with hx | hx
          · exact hx ▸ le_trans (not_lt.1 hgt) hm₀
          · exact hrec.1 x hx
        · intro a b hab
          simp only [Option.some.injEq, Prod.mk.injEq] at hab
          exact hab.2 ▸ hm₀

theorem length_decAt : ∀ (l : List BackendState) (j : Nat) (s : Int),
    (decAt l j s).length = l.length := by
  intro l
  induction l with
  | nil => intro j s; rfl
  | cons b rest ih =>
    intro j s
    cases j with
    | zero => rfl
    | succ j' => simpa [decAt] using ih j' s

theorem cwAt_addW : ∀ (bs : List BackendState) (i : Nat),
    cwAt (addW bs) i = cwAt bs i + (wAt bs i : Int) := by
  intro bs
  induction bs with
  | nil => intro i; simp [addW, cwAt, wAt]
  | cons b rest ih =>
    intro i
    cases i with
    | zero => rfl
    | succ i' => simpa [addW, cwAt, wAt] using ih i'

theorem wAt_addW : ∀ (bs : List BackendState) (i : Nat), wAt (addW bs) i = wAt bs i := by
  intro bs
  induction bs with
  | nil => intro i; rfl
  | cons b rest ih =>
    intro i
    cases i with
    | zero => rfl
    | succ i' => simpa [addW, wAt] using ih i'

theorem cwAt_decAt : ∀ (l : List BackendState) (j : Nat) (s : Int) (i : Nat),
    cwAt (decAt l j s) i = if i = j ∧ i < l.length then cwAt l i - s else cwAt l i := by
  intro l
  induction l with
  | nil => intro j s i; simp [decAt, cwAt]
  | cons b rest ih =>
    intro j s i
    cases j with
    | zero =>
      cases i with
      | zero => simp [decAt, cwAt]
      | succ i' => simp [decAt, cwAt]
    | succ j' =>
      cases i with
      | zero => simp [decAt, cwAt]
      | succ i' =>
        have := ih j' s i'
        simp only [decAt, cwAt, List.length_cons]
        rw [this]
        by_cases h1 : i' = j' ∧ i' < rest.length
        · rw [if_pos h1, if_pos ⟨by omega, by omega⟩]
        · rw [if_neg h1, if_neg (by omega)]

theorem wAt_decAt : ∀ (l : List BackendState) (j : Nat) (s : Int) (i : Nat),
    wAt (decAt l j s) i = wAt l i := by
  intro l
  induction l with
  | nil => intro j s i; rfl
  | cons b rest ih =>
    intro j s i
    cases j with
    | zero => cases i <;> simp [decAt, wAt]
    | succ j' =>
      cases i with
      | zero => rfl
      | succ i' => simpa [decAt, wAt] using ih j' s i'

theorem cwVals_length (bs : List BackendState) : (cwVals bs).length = bs.length := by
  simp [cwVals]

theorem cwVals_get : ∀ (bs : List BackendState) (t : Nat) (ht : t < (cwVals bs).length),
    (cwVals bs).get ⟨t, ht⟩ = cwAt bs t + (wAt bs t : Int) := by
  intro bs
  induction bs with
  | nil => intro t ht; simp [cwVals] at ht
  | cons b rest ih =>
    intro t ht
    cases t with
    | zero => rfl
    | succ t' =>
      simpa [cwVals, cwAt, wAt] using ih t' (by simpa [cwVals] using Nat.lt_of_succ_lt_succ (by simpa [cwVals] using ht))

theorem sumCW_addW : ∀ (bs : List BackendState),
    sumCW (addW bs) = sumCW bs + (totW bs : Int) := by
  intro bs
  induction bs with
  | nil => simp [sumCW, addW, totW]
  | cons b rest ih =>
    simp only [sumCW, addW, totW, List.map_cons, List.sum_cons] at *
    push_cast
    push_cast at ih
    linarith

theorem sumCW_decAt : ∀ (l : List BackendState) (j : Nat) (s : Int), j < l.length →
    sumCW (decAt l j s) = sumCW l - s := by
  intro l
  induction l with
  | nil => intro j s hj; simp at hj
  | cons b rest ih =>
    intro j s hj
    cases j with
    | zero => simp [decAt, sumCW]; ring
    | succ j' =>
      have := ih j' s (Nat.lt_of_succ_lt_succ hj)
      simp only [decAt, sumCW, List.map_cons, List.sum_cons] at *
      rw [this]
      ring

theorem sum_cwVals (bs : List BackendState) :
    (cwVals bs).sum = sumCW bs + (totW bs : Int) := by
  induction bs with
  | nil => simp [cwVals, sumCW, totW]
  | cons b rest ih =>
    simp only [cwVals, sumCW, totW, List.map_cons, List.sum_cons] at *
    push_cast
    push_cast at ih
    linarith

theorem sumCW_eq_range (bs : List BackendState) :
    sumCW bs = ∑ i in Finset.range bs.length, cwAt bs i := by
  induction bs with
  | nil => simp [sumCW]
  | cons b rest ih =>
    rw [List.length_cons, Finset.sum_range_succ']
    simp only [cwAt]
    rw [← ih]
    simp [sumCW, add_comm]

theorem totW_eq_range (bs : List BackendState) :
    totW bs = ∑ i in Finset.range bs.length, wAt bs i := by
  induction bs with
  | nil => simp [totW]
  | cons b rest ih =>
    rw [List.length_cons, Finset.sum_range_succ']
    simp only [wAt]
    rw [← ih]
    simp [totW, add_comm]

theorem healthyTotal_allHealthy (bs : List BackendState) :
    healthyTotal allHealthy bs = totW bs := by
  simp [healthyTotal, totW, allHealthy]

/-- `select_backend` with every backend healthy, re-expressed through
`addW`/`bestAux`. -/
theorem select_allHealthy_eq (bs : List BackendState) :
    select_backend allHealthy bs =
      if bs.isEmpty then (none, bs)
      else if totW bs = 0 then (none, bs)
      else
        match bestAux 0 none (cwVals bs) with
        | none => (none, addW bs)
        | some (j, _) => (some j, decAt (addW bs) j (totW bs)) := by
  unfold select_backend
  rw [healthyTotal_allHealthy,
    selectScan_eq allHealthy bs 0 none (fun _ _ => rfl)]

/-- Main characterization of one all-healthy selection step. -/
theorem lbStep_spec (bs : List BackendState) (hS : totW bs ≠ 0) :
    ∃ j m, bestAux 0 none (cwVals bs) = some (j, m) ∧
      (select_backend allHealthy bs).1 = some j ∧
      lbStep allHealthy bs = decAt (addW bs) j (totW bs) ∧
      j < bs.length ∧ cwAt bs j + (wAt bs j : Int) = m ∧
      (∀ i < bs.length, cwAt bs i + (wAt bs i : Int) ≤ m) := by
  have hne : bs ≠ [] := by
    intro h
    exact hS (by simp [h, totW])
  have hvals : cwVals bs ≠ [] := by
    intro h
    exact hne (by simpa [cwVals] using congrArg List.length h)
  obtain ⟨⟨j, m⟩, hjm⟩ := Option.isSome_iff_exists.1 (bestAux_isSome (cwVals bs) 0 none (Or.inr hvals))
  have hemp : bs.isEmpty = false := by simpa [List.isEmpty_iff] using hne
  have hsel : select_backend allHealthy bs = (some j, decAt (addW bs) j (totW bs)) := by
    rw [select_allHealthy_eq, hemp, if_neg hS]
    simp [hjm]
  rcases bestAux_src (cwVals bs) 0 none j m hjm with h | ⟨t, ht, hjt, hval⟩
  · exact absurd h (by simp)
  · have hj : j = t := by omega
    subst hj
    refine ⟨j, m, hjm, by rw [hsel], by unfold lbStep; rw [hsel], ?_, ?_, ?_⟩
    · exact (cwVals_length bs) ▸ ht
    · rw [← cwVals_get bs j ht, hval]
    · intro i hi
      have := (bestAux_ge (cwVals bs) 0 none j m hjm).1
      have hi' : i < (cwVals bs).length := by rwa [cwVals_length]
      have hmem : (cwVals bs).get ⟨i, hi'⟩ ∈ cwVals bs := List.get_mem _ _ hi'
      have := this _ hmem
      rwa [cwVals_get bs i hi'] at this

/-- The chosen value is at least 1 when accumulators sum to 0. -/
theorem best_val_ge_one (bs : List BackendState) (hS : totW bs ≠ 0) (hsum : sumCW bs = 0)
    {m : Int} (hall : ∀ i < bs.length, cwAt bs i + (wAt bs i : Int) ≤ m) : 1 ≤ m := by
  have hle : ∀ v ∈ cwVals bs, v ≤ m := by
    intro v hv
    obtain ⟨⟨t, ht⟩, rfl⟩ := List.mem_iff_get.1 hv
    rw [cwVals_get bs t ht]
    exact hall t (by rwa [cwVals_length] at ht)
  have hsum' : (cwVals bs).sum = (totW bs : Int) := by
    rw [sum_cwVals, hsum, zero_add]
  have hcard := List.sum_le_card_nsmul (cwVals bs) m hle
  rw [hsum'] at hcard
  by_contra hm
  push_neg at hm
  have hm' : m ≤ 0 := by omega
  have : ((cwVals bs).length : Int) • m ≤ 0 := by
    rw [smul_eq_mul]
    exact mul_nonpos_of_nonneg_of_nonpos (by positivity) hm'
  have hS' : 1 ≤ (totW bs : Int) := by
    have : 1 ≤ totW bs := Nat.one_le_iff_ne_zero.2 hS
    exact_mod_cast this
  simp only [nsmul_eq_mul] at hcard
  rw [smul_eq_mul] at this
  omega

/-- The selection scan never changes configs. -/
theorem selectScan_configs (healthy : BackendConfig → Bool) :
    ∀ (bs : List BackendState) (i : Nat) (best : Option (Nat × Int)),
      ((selectScan healthy bs i best).1).map (fun b => b.config) = bs.map (fun b => b.config) := by
  intro bs
  induction bs with
  | nil => intro i best; rfl
  | cons b rest ih =>
    intro i best
    by_cases hb : healthy b.config <;> simp [selectScan, hb, ih]

/-- The best entry tracked by the scan either came in through the
accumulator or points at a healthy backend of the scanned list. -/
theorem selectScan_src (healthy : BackendConfig → Bool) :
    ∀ (bs : List BackendState) (i : Nat) (best : Option (Nat × Int)) (j : Nat) (m : Int),
      (selectScan healthy bs i best).2 = some (j, m) →
      best = some (j, m) ∨
        ∃ t, ∃ ht : t < bs.length, j = i + t ∧ healthy ((bs.get ⟨t, ht⟩).config) = true := by
  intro bs
  induction bs with
  | nil =>
    intro i best j m h
    exact Or.inl h
  | cons b rest ih =>
    intro i best j m h
    by_cases hb : healthy b.config
    · simp only [selectScan, hb, if_true] at h
      rcases ih (i + 1) _ j m h with h' | ⟨t, ht, hjt, hh⟩
      · rcases hbest : best with _ | ⟨j₀, m₀⟩
        · rw [hbest] at h'
          simp only [Option.some.injEq, Prod.mk.injEq] at h'
          exact Or.inr ⟨0, by simp, by omega, by simpa [← h'.1] using hb⟩
        · rw [hbest] at h'
          dsimp only at h'
          by_cases hgt : b.current_weight + (b.config.weight : Int) > m₀
          · rw [if_pos hgt] at h'
            simp only [Option.some.injEq, Prod.mk.injEq] at h'
            exact Or.inr ⟨0, by simp, by omega, by simpa [← h'.1] using hb⟩
          · rw [if_neg hgt] at h'
            exact Or.inl (hbest ▸ h')
      · exact Or.inr ⟨t + 1, by simpa using Nat.succ_lt_succ ht, by omega, by simpa using hh⟩
    · simp only [selectScan, hb, if_false] at h
      rcases ih (i + 1) best j m h with h' | ⟨t, ht, hjt, hh⟩
      · exact Or.inl h'
      · exact Or.inr ⟨t + 1, by simpa using Nat.succ_lt_succ ht, by omega, by simpa using hh⟩

theorem decAt_configs : ∀ (l : List BackendState) (j : Nat) (s : Int),
    (decAt l j s).map (fun b => b.config) = l.map (fun b => b.config) := by
  intro l
  induction l with
  | nil => intro j s; rfl
  | cons b rest ih =>
    intro j s
    cases j with
    | zero => rfl
    | succ j' => simp [decAt, ih]

/-- One step preserves the list of configs (for any health view). -/
theorem lbStep_configs (healthy : BackendConfig → Bool) (bs : List BackendState) :
    (lbStep healthy bs).map (fun b => b.config) = bs.map (fun b => b.config) := by
  unfold lbStep select_backend
  by_cases h1 : bs.isEmpty
  · simp [h1]
  · by_cases h2 : healthyTotal healthy bs = 0
    · simp [h1, h2]
    · simp only [h1, h2, if_false, Bool.false_eq_true]
      rcases hb : (selectScan healthy bs 0 none).2 with _ | ⟨j, m⟩
      · simpa [hb] using selectScan_configs healthy bs 0 none
      · simp only [hb]
        rw [decAt_configs]
        exact selectScan_configs healthy bs 0 none

theorem lbStateAt_configs (healthy : BackendConfig → Bool) (bs : List BackendState) :
    ∀ n, (lbStateAt healthy bs n).map (fun b => b.config) = bs.map (fun b => b.config) := by
  intro n
  induction n with
  | zero => rfl
  | succ n ih =>
    unfold lbStateAt at *
    rw [Function.iterate_succ_apply', lbStep_configs, ih]

theorem wAt_congr : ∀ (l l' : List BackendState),
    l.map (fun b => b.config) = l'.map (fun b => b.config) → ∀ i, wAt l i = wAt l' i := by
  intro l
  induction l with
  | nil =>
    intro l' h i
    cases l' with
    | nil => rfl
    | cons c t => simp at h
  | cons b rest ih =>
    intro l' h i
    cases l' with
    | nil => simp at h
    | cons c t =>
      simp only [List.map_cons, List.cons.injEq] at h
      cases i with
      | zero => simp [wAt, h.1]
      | succ i' => simpa [wAt] using ih t h.2 i'

theorem totW_congr (l l' : List BackendState)
    (h : l.map (fun b => b.config) = l'.map (fun b => b.config)) : totW l = totW l' := by
  have hlen : l.length = l'.length := by
    have := congrArg List.length h
    simpa using this
  rw [totW_eq_range, totW_eq_range, hlen]
  exact Finset.sum_congr rfl fun i _ => wAt_congr l l' h i

theorem length_congr (l l' : List BackendState)
    (h : l.map (fun b => b.config) = l'.map (fun b => b.config)) : l.length = l'.length := by
  have := congrArg List.length h
  simpa using this

theorem length_addW (bs : List BackendState) : (addW bs).length = bs.length := by
  simp [addW]

theorem cwAt_oob : ∀ (l : List BackendState) (i : Nat), l.length ≤ i → cwAt l i = 0 := by
  intro l
  induction l with
  | nil => intro i _; rfl
  | cons b rest ih =>
    intro i hi
    cases i with
    | zero => simp at hi
    | succ i' => exact ih i' (by simpa using hi)

theorem lbStateAt_succ (healthy : BackendConfig → Bool) (bs : List BackendState) (n : Nat) :
    lbStateAt healthy bs (n + 1) = lbStep healthy (lbStateAt healthy bs n) := by
  unfold lbStateAt
  exact Function.iterate_succ_apply' (lbStep healthy) n bs

theorem lbCount_zero (healthy : BackendConfig → Bool) (bs : List BackendState) (i : Nat) :
    lbCount healthy bs 0 i = 0 := by
  simp [lbCount]

theorem lbCount_succ (healthy : BackendConfig → Bool) (bs : List BackendState) (n i : Nat) :
    lbCount healthy bs (n + 1) i
      = lbCount healthy bs n i + if lbSelAt healthy bs n = some i then 1 else 0 := by
  unfold lbCount
  rw [List.range_succ, List.filter_append, List.length_append]
  by_cases h : lbSelAt healthy bs n = some i <;> simp [h]

/-- One step preserves `LBInv`. -/
theorem lbStep_inv (S : Nat) (bs : List BackendState) (htw : totW bs = S) (hS : S ≠ 0)
    (hinv : LBInv S bs) : LBInv S (lbStep allHealthy bs) := by
  obtain ⟨j, m, hjm, hsel1, hstep, hjlen, hjval, hmax⟩ := lbStep_spec bs (htw ▸ hS)
  have hm1 : 1 ≤ m := best_val_ge_one bs (htw ▸ hS) hinv.1 hmax
  have hS1 : (1 : Int) ≤ (S : Int) := by exact_mod_cast Nat.one_le_iff_ne_zero.2 hS
  constructor
  · rw [hstep, sumCW_decAt _ _ _ (by rw [length_addW]; exact hjlen), sumCW_addW, hinv.1, htw]
    ring
  · intro i hi
    have hlen : (lbStep allHealthy bs).length = bs.length := by
      rw [hstep, length_decAt, length_addW]
    rw [hlen] at hi
    rw [hstep, cwAt_decAt, length_addW]
    by_cases hij : i = j ∧ i < bs.length
    · rw [if_pos hij, cwAt_addW, hij.1, hjval]
      linarith
    · rw [if_neg hij, cwAt_addW]
      have h0 : (0 : Int) ≤ (wAt bs i : Int) := by positivity
      have := hinv.2 i hi
      linarith

/-- Bookkeeping identity: after `n` steps, backend `i`'s accumulator equals
`n·wᵢ − S·countᵢ`. -/
theorem lb_identity (bs₀ : List BackendState) (hz : ∀ i, cwAt bs₀ i = 0)
    (hS : totW bs₀ ≠ 0) :
    ∀ n, ∀ i, i < bs₀.length →
      cwAt (lbStateAt allHealthy bs₀ n) i
        = (n : Int) * (wAt bs₀ i : Int)
          - (totW bs₀ : Int) * (lbCount allHealthy bs₀ n i : Int) := by
  intro n
  induction n with
  | zero =>
    intro i hi
    simp [lbStateAt, hz i, lbCount]
  | succ n ih =>
    intro i hi
    have hconf := lbStateAt_configs allHealthy bs₀ n
    have htot : totW (lbStateAt allHealthy bs₀ n) = totW bs₀ := totW_congr _ _ hconf
    have hlen : (lbStateAt allHealthy bs₀ n).length = bs₀.length := length_congr _ _ hconf
    obtain ⟨j, m, hjm, hsel1, hstep, hjlen, hjval, hmax⟩ :=
      lbStep_spec (lbStateAt allHealthy bs₀ n) (htot ▸ hS)
    have hselAt : lbSelAt allHealthy bs₀ n = some j := hsel1
    have hw : wAt (lbStateAt allHealthy bs₀ n) i = wAt bs₀ i := wAt_congr _ _ hconf i
    rw [lbStateAt_succ, hstep, cwAt_decAt, length_addW, lbCount_succ, hselAt]
    have hih := ih i hi
    by_cases hij : i = j
    · rw [if_pos ⟨hij, by omega⟩, cwAt_addW, hw, hih]
      rw [if_pos (by rw [hij])]
      push_cast
      rw [htot]
      ring
    · rw [if_neg (by intro hc; exact hij hc.1), cwAt_addW, hw, hih]
      rw [if_neg (by simpa [eq_comm] using hij)]
      push_cast
      ring

/-- The first `n` selections distribute over the backends: counts sum to `n`. -/
theorem lb_count_sum (bs₀ : List BackendState) (hS : totW bs₀ ≠ 0) :
    ∀ n, ∑ i in Finset.range bs₀.length, lbCount allHealthy bs₀ n i = n := by
  intro n
  induction n with
  | zero => simp [lbCount]
  | succ n ih =>
    have hconf := lbStateAt_configs allHealthy bs₀ n
    have htot : totW (lbStateAt allHealthy bs₀ n) = totW bs₀ := totW_congr _ _ hconf
    have hlen : (lbStateAt allHealthy bs₀ n).length = bs₀.length := length_congr _ _ hconf
    obtain ⟨j, m, hjm, hsel1, hstep, hjlen, hjval, hmax⟩ :=
      lbStep_spec (lbStateAt allHealthy bs₀ n) (htot ▸ hS)
    have hselAt : lbSelAt allHealthy bs₀ n = some j := hsel1
    have hstepc : ∀ i, lbCount allHealthy bs₀ (n + 1) i
        = lbCount allHealthy bs₀ n i + if j = i then 1 else 0 := by
      intro i
      rw [lbCount_succ, hselAt]
      simp
    simp only [hstepc]
    rw [Finset.sum_add_distrib, ih, Finset.sum_ite_eq]
    rw [if_pos (Finset.mem_range.2 (by omega))]

/-- Lists with equal configs and equal accumulators are equal. -/
theorem eq_of_config_cw : ∀ (l l' : List BackendState),
    l.map (fun b => b.config) = l'.map (fun b => b.config) →
    (∀ i, cwAt l i = cwAt l' i) → l = l' := by
  intro l
  induction l with
  | nil =>
    intro l' h _
    cases l' with
    | nil => rfl
    | cons c t => simp at h
  | cons b rest ih =>
    intro l' h hcw
    cases l' with
    | nil => simp at h
    | cons c t =>
      simp only [List.map_cons, List.cons.injEq] at h
      have hhd : b = c := by
        cases b; cases c
        simp only [BackendState.mk.injEq]
        exact ⟨h.1, hcw 0⟩
      have htl : rest = t := ih t h.2 fun i => hcw (i + 1)
      rw [hhd, htl]

/-- SWRR fairness core: over the first `S` selections from the zero state,
backend `i` is chosen exactly `wᵢ` times. -/
theorem lb_count_S (bs₀ : List BackendState) (hz : ∀ i, cwAt bs₀ i = 0)
    (hS : totW bs₀ ≠ 0) :
    ∀ i, i < bs₀.length → lbCount allHealthy bs₀ (totW bs₀) i = wAt bs₀ i := by
  have hS1 : (1 : Int) ≤ (totW bs₀ : Int) := by
    exact_mod_cast Nat.one_le_iff_ne_zero.2 hS
  have hinvAt : ∀ n, LBInv (totW bs₀) (lbStateAt allHealthy bs₀ n) := by
    intro n
    induction n with
    | zero =>
      show LBInv (totW bs₀) bs₀
      refine ⟨by rw [sumCW_eq_range]; simp [hz], fun i _ => ?_⟩
      rw [hz i]
      linarith
    | succ n ih =>
      have hconf := lbStateAt_configs allHealthy bs₀ n
      rw [lbStateAt_succ]
      exact lbStep_inv (totW bs₀) _ (totW_congr _ _ hconf) hS ih
  have hle : ∀ i, i < bs₀.length →
      lbCount allHealthy bs₀ (totW bs₀) i ≤ wAt bs₀ i := by
    intro i hi
    have hid := lb_identity bs₀ hz hS (totW bs₀) i hi
    have hconf := lbStateAt_configs allHealthy bs₀ (totW bs₀)
    have hlen : (lbStateAt allHealthy bs₀ (totW bs₀)).length = bs₀.length :=
      length_congr _ _ hconf
    have hin := (hinvAt (totW bs₀)).2 i (by rwa [hlen])
    by_contra hcon
    push_neg at hcon
    have hc1 : (wAt bs₀ i : Int) + 1 ≤ (lbCount allHealthy bs₀ (totW bs₀) i : Int) := by
      exact_mod_cast hcon
    have hmul : (totW bs₀ : Int) * 1 ≤
        (totW bs₀ : Int) * ((lbCount allHealthy bs₀ (totW bs₀) i : Int) - (wAt bs₀ i : Int)) :=
      mul_le_mul_of_nonneg_left (by linarith) (by linarith)
    rw [hid] at hin
    nlinarith
  intro i hi
  by_contra hne
  have hlt : lbCount allHealthy bs₀ (totW bs₀) i < wAt bs₀ i :=
    lt_of_le_of_ne (hle i hi) hne
  have hsum := lb_count_sum bs₀ hS (totW bs₀)
  have hlt2 : ∑ t in Finset.range bs₀.length, lbCount allHealthy bs₀ (totW bs₀) t
      < ∑ t in Finset.range bs₀.length, wAt bs₀ t := by
    refine Finset.sum_lt_sum (fun t ht => hle t (Finset.mem_range.1 ht)) ?_
    exact ⟨i, Finset.mem_range.2 hi, hlt⟩
  rw [hsum, ← totW_eq_range] at hlt2
  exact lt_irrefl _ hlt2

/-- After `S` selections from the zero state, the state returns to its
starting point. -/
theorem lb_period (bs₀ : List BackendState) (hz : ∀ i, cwAt bs₀ i = 0)
    (hS : totW bs₀ ≠ 0) : lbStateAt allHealthy bs₀ (totW bs₀) = bs₀ := by
  have hconf := lbStateAt_configs allHealthy bs₀ (totW bs₀)
  have hlen : (lbStateAt allHealthy bs₀ (totW bs₀)).length = bs₀.length :=
    length_congr _ _ hconf
  refine eq_of_config_cw _ _ hconf fun i => ?_
  by_cases hi : i < bs₀.length
  · rw [lb_identity bs₀ hz hS (totW bs₀) i hi, lb_count_S bs₀ hz hS i hi, hz i]
    ring
  · rw [hz i, cwAt_oob _ _ (by omega)]

theorem lbStateAt_add_S (bs₀ : List BackendState) (hz : ∀ i, cwAt bs₀ i = 0)
    (hS : totW bs₀ ≠ 0) (k : Nat) :
    lbStateAt allHealthy bs₀ (k + totW bs₀) = lbStateAt allHealthy bs₀ k := by
  unfold lbStateAt
  rw [Function.iterate_add_apply]
  exact congrArg _ (lb_period bs₀ hz hS)

theorem lbSelAt_add_S (bs₀ : List BackendState) (hz : ∀ i, cwAt bs₀ i = 0)
    (hS : totW bs₀ ≠ 0) (k : Nat) :
    lbSelAt allHealthy bs₀ (k + totW bs₀) = lbSelAt allHealthy bs₀ k := by
  unfold lbSelAt
  rw [lbStateAt_add_S bs₀ hz hS k]

/-- Window fairness over any offset `k`, all-healthy view. -/
theorem lb_window (bs₀ : List BackendState) (hz : ∀ i, cwAt bs₀ i = 0)
    (hS : totW bs₀ ≠ 0) :
    ∀ k, ∀ i, i < bs₀.length →
      lbCount allHealthy bs₀ (k + totW bs₀) i = lbCount allHealthy bs₀ k i + wAt bs₀ i := by
  intro k
  induction k with
  | zero =>
    intro i hi
    simpa [lbCount_zero] using lb_count_S bs₀ hz hS i hi
  | succ k ih =>
    intro i hi
    have h1 : k + 1 + totW bs₀ = (k + totW bs₀) + 1 := by omega
    rw [h1, lbCount_succ, lbSelAt_add_S bs₀ hz hS k, lbCount_succ, ih i hi]
    omega

/-- A health view that is true on every present config selects like
`allHealthy`. -/
theorem select_congr (healthy : BackendConfig → Bool) (bs : List BackendState)
    (hall : ∀ b ∈ bs, healthy b.config = true) :
    select_backend healthy bs = select_backend allHealthy bs := by
  unfold select_backend
  have h1 : healthyTotal healthy bs = healthyTotal allHealthy bs := by
    unfold healthyTotal
    have h2 : bs.filter (fun b => allHealthy b.config) = bs :=
      List.filter_eq_self.2 fun _ _ => rfl
    have h3 : bs.filter (fun b => healthy b.config) = bs :=
      List.filter_eq_self.2 hall
    rw [h2, h3]
  rw [h1, selectScan_eq healthy bs 0 none hall,
    selectScan_eq allHealthy bs 0 none (fun _ _ => rfl)]

theorem lbStateAt_all (healthy : BackendConfig → Bool) (bs₀ : List BackendState)
    (hall : ∀ b ∈ bs₀, healthy b.config = true) :
    ∀ n, ∀ b ∈ lbStateAt allHealthy bs₀ n, healthy b.config = true := by
  intro n b hb
  have hcfg : b.config ∈ (lbStateAt allHealthy bs₀ n).map (fun x => x.config) :=
    List.mem_map_of_mem _ hb
  rw [lbStateAt_configs] at hcfg
  obtain ⟨b₀, hb₀, hcfgeq⟩ := List.mem_map.1 hcfg
  rw [← hcfgeq]
  exact hall b₀ hb₀

theorem lbStateAt_congr (healthy : BackendConfig → Bool) (bs₀ : List BackendState)
    (hall : ∀ b ∈ bs₀, healthy b.config = true) :
    ∀ n, lbStateAt healthy bs₀ n = lbStateAt allHealthy bs₀ n := by
  intro n
  induction n with
  | zero => rfl
  | succ n ih =>
    rw [lbStateAt_succ, lbStateAt_succ, ih]
    unfold lbStep
    rw [select_congr healthy _ (lbStateAt_all healthy bs₀ hall n)]

theorem lbSelAt_congr (healthy : BackendConfig → Bool) (bs₀ : List BackendState)
    (hall : ∀ b ∈ bs₀, healthy b.config = true) (n : Nat) :
    lbSelAt healthy bs₀ n = lbSelAt allHealthy bs₀ n := by
  unfold lbSelAt
  rw [lbStateAt_congr healthy bs₀ hall n,
    select_congr healthy _ (lbStateAt_all healthy bs₀ hall n)]

theorem lbCount_congr (healthy : BackendConfig → Bool) (bs₀ : List BackendState)
    (hall : ∀ b ∈ bs₀, healthy b.config = true) (n i : Nat) :
    lbCount healthy bs₀ n i = lbCount allHealthy bs₀ n i := by
  unfold lbCount
  congr 1
  exact List.filter_congr fun j _ => by rw [lbSelAt_congr healthy bs₀ hall j]

theorem cwAt_map_mkState (cfgs : List BackendConfig) : ∀ i, cwAt (cfgs.map mkState) i = 0 := by
  induction cfgs with
  | nil => intro i; rfl
  | cons c rest ih =>
    intro i
    cases i with
    | zero => rfl
    | succ i' => simpa [cwAt] using ih i'

theorem wAt_map_mkState : ∀ (cfgs : List BackendConfig) (i : Nat) (hi : i < cfgs.length),
    wAt (cfgs.map mkState) i = (cfgs.get ⟨i, hi⟩).weight := by
  intro cfgs
  induction cfgs with
  | nil => intro i hi; simp at hi
  | cons c rest ih =>
    intro i hi
    cases i with
    | zero => rfl
    | succ i' => simpa [wAt] using ih i' (Nat.lt_of_succ_lt_succ hi)

theorem totW_map_mkState (cfgs : List BackendConfig) :
    totW (cfgs.map mkState) = weightSum cfgs := by
  unfold totW weightSum
  rw [List.map_map]
  rfl

end Ntonix

namespace Ntonix

/-! ## Claim theorems: dispatcher (C1, C2, C3) -/

/-- **C1** (counterexample): with weights `[5,1,1]`, all healthy and
accumulators at 0, seven consecutive `select_backend` calls do *not*
return the spec's claimed sequence `0,0,1,0,0,2,0` (the boolean
comparison with the claimed sequence evaluates to false). -/
theorem swrr_run511_ne_claimed :
    (lbRun allHealthy fleet511 7
      == [some 0, some 0, some 1, some 0, some 0, some 2, some 0]) = false := by
  decide

/-- **C1** (amended): with weights `[5,1,1]`, all healthy and accumulators
at 0, the sequence of indexes returned by 7 consecutive `select_backend`
calls is exactly `0,0,1,0,2,0,0`, ties on maximum `current_weight` broken
by the earliest index. -/
theorem swrr_run511_actual :
    lbRun allHealthy fleet511 7 =
      [some 0, some 0, some 1, some 0, some 2, some 0, some 0] := by
  decide

/-- **C2**: for every fixed backend set whose every backend the health view
reports healthy, with `S` the sum of the weights and accumulators starting
at 0, over any window of `S` consecutive sequential selections each backend
`i` is selected exactly `weight i` times. -/
theorem swrr_window_fairness (healthy : BackendConfig → Bool)
    (cfgs : List BackendConfig) (hall : ∀ c ∈ cfgs, healthy c = true)
    (k i : Nat) (hi : i < cfgs.length) :
    lbCount healthy (cfgs.map mkState) (k + weightSum cfgs) i
      = lbCount healthy (cfgs.map mkState) k i + (cfgs.get ⟨i, hi⟩).weight := by
  have hall' : ∀ b ∈ cfgs.map mkState, healthy b.config = true := by
    intro b hb
    obtain ⟨c, hc, rfl⟩ := List.mem_map.1 hb
    exact hall c hc
  have hz : ∀ t, cwAt (cfgs.map mkState) t = 0 := cwAt_map_mkState cfgs
  have hlen : (cfgs.map mkState).length = cfgs.length := by simp
  have hwi := wAt_map_mkState cfgs i hi
  rw [lbCount_congr healthy _ hall', lbCount_congr healthy _ hall', ← totW_map_mkState, ← hwi]
  by_cases hS : totW (cfgs.map mkState) = 0
  · have hw0 : wAt (cfgs.map mkState) i = 0 := by
      have := totW_eq_range (cfgs.map mkState)
      rw [hS] at this
      have hall0 := (Finset.sum_eq_zero_iff.1 this.symm)
      exact hall0 i (Finset.mem_range.2 (by omega))
    rw [hS, hw0]
    simp
  · exact lb_window (cfgs.map mkState) hz hS k i (by omega)

/-- Witness for C2 at weights `[5,1,1]`: the window `[0,7)` gives backend 0
exactly its weight 5, and concretely the multiset of the first 7 selections
is `{0 ↦ 5, 1 ↦ 1, 2 ↦ 1}`. -/
theorem swrr_window_fairness_witness :
    lbCount allHealthy (cfgs511.map mkState) (0 + weightSum cfgs511) 0
      = lbCount allHealthy (cfgs511.map mkState) 0 0
        + (cfgs511.get ⟨0, by decide⟩).weight ∧
    lbCount allHealthy (cfgs511.map mkState) 7 0 = 5 ∧
    lbCount allHealthy (cfgs511.map mkState) 7 1 = 1 ∧
    lbCount allHealthy (cfgs511.map mkState) 7 2 = 1 := by
  refine ⟨swrr_window_fairness allHealthy cfgs511 (fun c _ => rfl) 0 0 (by decide), ?_, ?_, ?_⟩
  · decide
  · decide
  · decide

/-- **C3**: `select_backend` never returns a backend the health view reports
unhealthy, and returns `none` when the list is empty or every backend is
reported unhealthy. -/
theorem select_backend_healthy_only (healthy : BackendConfig → Bool)
    (bs : List BackendState) :
    (∀ j, (select_backend healthy bs).1 = some j →
        ∃ hj : j < bs.length, healthy ((bs.get ⟨j, hj⟩).config) = true) ∧
    ((bs = [] ∨ ∀ b ∈ bs, healthy b.config = false) →
      (select_backend healthy bs).1 = none) := by
  constructor
  · intro j hj
    unfold select_backend at hj
    by_cases h1 : bs.isEmpty
    · rw [if_pos h1] at hj
      simp at hj
    · rw [if_neg h1] at hj
      by_cases h2 : healthyTotal healthy bs = 0
      · rw [if_pos h2] at hj
        simp at hj
      · rw [if_neg h2] at hj
        rcases hscan : (selectScan healthy bs 0 none).2 with _ | ⟨j', m⟩
        · simp only [hscan] at hj
          simp at hj
        · simp only [hscan] at hj
          simp only [Option.some.injEq] at hj
          rcases selectScan_src healthy bs 0 none j' m hscan with h | ⟨t, ht, hjt, hh⟩
          · exact absurd h (by simp)
          · have hj' : j = t := by omega
            subst hj'
            exact ⟨ht, hh⟩
  · intro h
    rcases h with h | h
    · subst h
      rfl
    · have h0 : healthyTotal healthy bs = 0 := by
        unfold healthyTotal
        have hf : bs.filter (fun b => healthy b.config) = [] :=
          List.filter_eq_nil_iff.2 fun a ha => by simp [h a ha]
        rw [hf]
        rfl
      unfold select_backend
      by_cases h1 : bs.isEmpty <;> simp [h1, h0]

/-- Witness for C3: with only the port-2 backend healthy the selection is
that backend, and with every backend down the selection is `none`. -/
theorem select_backend_healthy_only_witness :
    (∃ hj : 1 < bsW.length, hW ((bsW.get ⟨1, hj⟩).config) = true) ∧
    (select_backend hU bsW).1 = none := by
  refine ⟨(select_backend_healthy_only hW bsW).1 1 ?_,
    (select_backend_healthy_only hU bsW).2 (Or.inr ?_)⟩
  · decide
  · decide

end Ntonix

namespace Ntonix

/-! ## Lemmas about the LRU cache -/

theorem sumSizes_dropLast (l : List (CacheKey × CacheEntry)) (h : l ≠ []) :
    sumSizes l = sumSizes l.dropLast + (l.getLast h).2.size_bytes := by
  conv_lhs => rw [← List.dropLast_append_getLast h]
  simp [sumSizes]

/-- Full characterization of the eviction loop, by induction on the fuel:
it drops some minimal number `n` of tail nodes, counts them, and lands
within the limit. -/
theorem evictGo_spec : ∀ (fuel maxB : Nat) (l : List (CacheKey × CacheEntry)) (ev : Nat),
    l.length ≤ fuel →
    ∃ n, evictGo maxB fuel l (sumSizes l) ev
        = (dropLastN n l, sumSizes (dropLastN n l), ev + n) ∧
      sumSizes (dropLastN n l) ≤ maxB ∧
      ∀ j < n, maxB < sumSizes (dropLastN j l) := by
  intro fuel
  induction fuel with
  | zero =>
    intro maxB l ev hlen
    have hl : l = [] := List.length_eq_zero.1 (Nat.le_zero.1 hlen)
    subst hl
    exact ⟨0, rfl, by simp [sumSizes, dropLastN], fun j hj => by omega⟩
  | succ fuel ih =>
    intro maxB l ev hlen
    by_cases hc : maxB < sumSizes l ∧ l ≠ []
    · have hlpos : 0 < l.length := List.length_pos.2 hc.2
      have hsub : sumSizes l - (l.getLast hc.2).2.size_bytes = sumSizes l.dropLast := by
        have h4 := sumSizes_dropLast l hc.2
        omega
      obtain ⟨n, hrec, hle, hj⟩ := ih maxB l.dropLast (ev + 1)
        (by rw [List.length_dropLast]; omega)
      refine ⟨n + 1, ?_, by simpa only [dropLastN] using hle, ?_⟩
      · rw [evictGo, dif_pos hc, hsub, hrec]
        have h3 : ev + 1 + n = ev + (n + 1) := by omega
        rw [h3]
        rfl
      · intro j hjn
        cases j with
        | zero => simpa [dropLastN] using hc.1
        | succ t => simpa only [dropLastN] using hj t (by omega)
    · have hle0 : sumSizes l ≤ maxB := by
        by_cases hnil : l = []
        · subst hnil
          simp [sumSizes]
        · by_contra hgt
          push_neg at hgt
          exact hc ⟨hgt, hnil⟩
      refine ⟨0, ?_, by simpa [dropLastN] using hle0, fun j hj => by omega⟩
      rw [evictGo, dif_neg hc]
      simp [dropLastN]

/-- The eviction loop, started from a consistent running size. -/
theorem evictLoop_spec (maxB : Nat) (l : List (CacheKey × CacheEntry)) (ev : Nat) :
    ∃ n, evictLoop maxB l (sumSizes l) ev = (dropLastN n l, sumSizes (dropLastN n l), ev + n) ∧
      sumSizes (dropLastN n l) ≤ maxB ∧
      ∀ j < n, maxB < sumSizes (dropLastN j l) :=
  evictGo_spec l.length maxB l ev le_rfl

theorem sumSizes_eraseKey : ∀ (l : List (CacheKey × CacheEntry)) (k : CacheKey) (e : CacheEntry),
    findEntry l k = some e → sumSizes l = sumSizes (eraseKey l k) + e.size_bytes := by
  intro l
  induction l with
  | nil => intro k e h; simp [findEntry] at h
  | cons p rest ih =>
    intro k e h
    by_cases hk : (p.1 == k) = true
    · unfold findEntry at h
      simp only [List.find?, hk, Option.map_some', Option.some.injEq] at h
      unfold eraseKey
      simp only [List.eraseP_cons, hk, cond_true]
      simp only [sumSizes, List.map_cons, List.sum_cons]
      rw [← h]
      omega
    · unfold findEntry at h
      simp only [List.find?, hk, Bool.false_eq_true] at h
      have := ih k e h
      unfold eraseKey
      simp only [List.eraseP_cons, hk, cond_false]
      simp only [sumSizes, List.map_cons, List.sum_cons]
      unfold sumSizes eraseKey at this
      omega

theorem eraseKey_of_none (l : List (CacheKey × CacheEntry)) (k : CacheKey)
    (h : findEntry l k = none) : eraseKey l k = l := by
  unfold findEntry at h
  have h2 : l.find? (fun p => p.1 == k) = none := by
    rcases hf : l.find? (fun p => p.1 == k) with _ | p
    · exact hf
    · rw [hf] at h
      simp at h
  exact List.eraseP_of_forall_not (List.find?_eq_none.1 h2)

theorem findEntry_eraseKey : ∀ (l : List (CacheKey × CacheEntry)) (k : CacheKey),
    (l.map (fun p => p.1)).Nodup → findEntry (eraseKey l k) k = none := by
  intro l
  induction l with
  | nil => intro k _; rfl
  | cons p rest ih =>
    intro k hnd
    simp only [List.map_cons, List.nodup_cons] at hnd
    by_cases hk : (p.1 == k) = true
    · have hkeq : p.1 = k := by simpa using hk
      unfold eraseKey
      simp only [List.eraseP_cons, hk, cond_true]
      unfold findEntry
      have hnone : rest.find? (fun q => q.1 == k) = none := by
        refine List.find?_eq_none.2 fun x hx hbeq => ?_
        have hxk : x.1 = k := by simpa using hbeq
        exact hnd.1 (List.mem_map.2 ⟨x, hx, by rw [hxk, hkeq]⟩)
      rw [hnone]
      rfl
    · unfold eraseKey findEntry
      simp only [List.eraseP_cons, hk, cond_false, List.find?, Bool.false_eq_true]
      exact ih k hnd.2

theorem dropLastN_length (n : Nat) : ∀ (l : List (CacheKey × CacheEntry)),
    (dropLastN n l).length = l.length - n := by
  induction n with
  | zero => intro l; simp [dropLastN]
  | succ n ih =>
    intro l
    show (dropLastN n l.dropLast).length = l.length - (n + 1)
    rw [ih, List.length_dropLast]
    omega

theorem head_dropLastN (n : Nat) : ∀ (l : List (CacheKey × CacheEntry)),
    n < l.length → (dropLastN n l).head? = l.head? := by
  induction n with
  | zero => intro l _; rfl
  | succ n ih =>
    intro l hl
    have h1 : n < l.dropLast.length := by rw [List.length_dropLast]; omega
    rw [show dropLastN (n + 1) l = dropLastN n l.dropLast from rfl, ih l.dropLast h1]
    cases l with
    | nil => simp at hl
    | cons a t =>
      cases t with
      | nil => simp at hl
      | cons b t' => simp

theorem wf_initCache (cfg : LruCacheConfig) : CacheWF (initCache cfg) :=
  ⟨rfl, by simp [initCache, sumSizes]⟩

theorem wf_cacheGet (now : Nat) (key : CacheKey) (c : LruCache) (h : CacheWF c) :
    CacheWF (cacheGet now key c).2 := by
  unfold cacheGet
  cases hen : c.config.enabled with
  | false => exact h
  | true =>
    simp only [hen, Bool.not_true, Bool.false_eq_true, if_false]
    cases hf : findEntry c.lru_list key with
    | none => exact ⟨h.1, h.2⟩
    | some e =>
      by_cases hexp : is_expired c.config now e = true
      · simp only [hexp, if_true]
        have hs := sumSizes_eraseKey c.lru_list key e hf
        have h1 := h.1
        have h2 := h.2
        exact ⟨by simp only []; omega, by simp only []; omega⟩
      · simp only [hexp, if_false]
        exact ⟨h.1, h.2⟩

theorem wf_cachePut (now : Nat) (key : CacheKey) (body ct : String) (c : LruCache)
    (h : CacheWF c) : CacheWF (cachePut now key body ct c) := by
  unfold cachePut
  cases hen : c.config.enabled with
  | false => exact h
  | true =>
    simp only [hen, Bool.not_true, Bool.false_eq_true, if_false]
    by_cases hsize : body.length > c.config.max_size_bytes
    · rw [if_pos hsize]
      exact h
    · rw [if_neg hsize]
      cases hf : findEntry c.lru_list key with
      | some old =>
        have hs := sumSizes_eraseKey c.lru_list key old hf
        have hc1cur : c.current_size_bytes - old.size_bytes + body.length
            = sumSizes ((key, mkEntry now body ct) :: eraseKey c.lru_list key) := by
          simp only [sumSizes, List.map_cons, List.sum_cons, mkEntry]
          have h1 := h.1
          unfold sumSizes at *
          omega
        simp only []
        rw [hc1cur]
        obtain ⟨n, heq, hle, hj⟩ := evictLoop_spec c.config.max_size_bytes
          ((key, mkEntry now body ct) :: eraseKey c.lru_list key) c.evictions
        rw [heq]
        exact ⟨rfl, hle⟩
      | none =>
        have hc1cur : c.current_size_bytes + body.length
            = sumSizes ((key, mkEntry now body ct) :: c.lru_list) := by
          simp only [sumSizes, List.map_cons, List.sum_cons, mkEntry]
          have h1 := h.1
          unfold sumSizes at *
          omega
        simp only []
        rw [hc1cur]
        obtain ⟨n, heq, hle, hj⟩ := evictLoop_spec c.config.max_size_bytes
          ((key, mkEntry now body ct) :: c.lru_list) c.evictions
        rw [heq]
        exact ⟨rfl, hle⟩

theorem wf_cacheRemove (key : CacheKey) (c : LruCache) (h : CacheWF c) :
    CacheWF (cacheRemove key c).2 := by
  unfold cacheRemove
  cases hf : findEntry c.lru_list key with
  | none => exact h
  | some e =>
    have hs := sumSizes_eraseKey c.lru_list key e hf
    have h1 := h.1
    have h2 := h.2
    exact ⟨by simp only []; omega, by simp only []; omega⟩

theorem wf_cacheClear (c : LruCache) : CacheWF (cacheClear c) :=
  ⟨rfl, by simp [cacheClear, sumSizes]⟩

theorem wf_cacheUpdateConfig (maxB ttl : Nat) (c : LruCache) (h : CacheWF c) :
    CacheWF (cacheUpdateConfig maxB ttl c) := by
  unfold cacheUpdateConfig
  simp only []
  rw [h.1]
  obtain ⟨n, heq, hle, hj⟩ := evictLoop_spec maxB c.lru_list c.evictions
  rw [heq]
  exact ⟨rfl, hle⟩

theorem wf_applyOp (c : LruCache) (op : CacheOp) (h : CacheWF c) : CacheWF (applyOp c op) := by
  cases op with
  | opGet now key => exact wf_cacheGet now key c h
  | opPut now key body ct => exact wf_cachePut now key body ct c h
  | opRemove key => exact wf_cacheRemove key c h
  | opClear => exact wf_cacheClear c
  | opUpdateConfig m t => exact wf_cacheUpdateConfig m t c h

theorem wf_foldl : ∀ (ops : List CacheOp) (c : LruCache), CacheWF c →
    CacheWF (ops.foldl applyOp c) := by
  intro ops
  induction ops with
  | nil => intro c h; exact h
  | cons op rest ih => intro c h; exact ih _ (wf_applyOp c op h)

theorem wf_runOps (cfg : LruCacheConfig) (ops : List CacheOp) : CacheWF (runOps cfg ops) :=
  wf_foldl ops (initCache cfg) (wf_initCache cfg)

theorem config_cacheGet (now : Nat) (key : CacheKey) (c : LruCache) :
    (cacheGet now key c).2.config = c.config := by
  unfold cacheGet
  split
  · rfl
  · split
    · rfl
    · split
      · rfl
      · rfl

theorem config_cachePut (now : Nat) (key : CacheKey) (body ct : String) (c : LruCache) :
    (cachePut now key body ct c).config = c.config := by
  unfold cachePut
  split
  · rfl
  · split
    · rfl
    · split <;> rfl

theorem enabled_applyOp (c : LruCache) (op : CacheOp) :
    (applyOp c op).config.enabled = c.config.enabled := by
  cases op with
  | opGet now key =>
    show ((cacheGet now key c).2).config.enabled = _
    rw [config_cacheGet]
  | opPut now key body ct =>
    show (cachePut now key body ct c).config.enabled = _
    rw [config_cachePut]
  | opRemove key =>
    show ((cacheRemove _ c).2).config.enabled = _
    unfold cacheRemove
    split <;> rfl
  | opClear => rfl
  | opUpdateConfig m t => rfl

theorem enabled_foldl : ∀ (ops : List CacheOp) (c : LruCache),
    (ops.foldl applyOp c).config.enabled = c.config.enabled := by
  intro ops
  induction ops with
  | nil => intro c; rfl
  | cons op rest ih => intro c; rw [List.foldl_cons, ih, enabled_applyOp]

theorem enabled_runOps (cfg : LruCacheConfig) (ops : List CacheOp) :
    (runOps cfg ops).config.enabled = cfg.enabled :=
  enabled_foldl ops (initCache cfg)

/-- Eviction after an insertion whose head fits never evicts the head. -/
theorem evict_insert_spec (maxB : Nat) (ins : List (CacheKey × CacheEntry))
    (ev : Nat) (hd : CacheKey × CacheEntry) (hhd : ins.head? = some hd)
    (hsz : hd.2.size_bytes ≤ maxB) :
    ∃ n, evictLoop maxB ins (sumSizes ins) ev
        = (dropLastN n ins, sumSizes (dropLastN n ins), ev + n) ∧
      sumSizes (dropLastN n ins) ≤ maxB ∧
      (∀ j < n, maxB < sumSizes (dropLastN j ins)) ∧
      (dropLastN n ins).head? = some hd := by
  obtain ⟨n, heq, hle, hj⟩ := evictLoop_spec maxB ins ev
  refine ⟨n, heq, hle, hj, ?_⟩
  have hL : 0 < ins.length := by
    cases ins
    · simp at hhd
    · simp
  have hnL : n < ins.length := by
    by_contra hge
    push_neg at hge
    have hl1 : ins.length - 1 < n := by omega
    have hcontra := hj (ins.length - 1) hl1
    have hlen1 : (dropLastN (ins.length - 1) ins).length = 1 := by
      rw [dropLastN_length]
      omega
    obtain ⟨a, ha⟩ := List.length_eq_one.1 hlen1
    have hh : (dropLastN (ins.length - 1) ins).head? = some hd := by
      rw [head_dropLastN _ _ (by omega), hhd]
    rw [ha] at hh
    simp only [List.head?_cons, Option.some.injEq] at hh
    rw [ha, hh] at hcontra
    simp only [sumSizes, List.map_cons, List.map_nil, List.sum_cons, List.sum_nil] at hcontra
    omega
  rw [head_dropLastN n ins hnL, hhd]

end Ntonix

namespace Ntonix

/-! ## Claim theorems: cache (C4, C5, C10) -/

/-- **C4**: on an enabled cache, after any sequence of operations, a `put`
leaves the stored total within `max_size_bytes`; an oversize body is a
no-op; otherwise the entry is inserted (or replaces the old node for the
key), becomes most-recently-used (head of the LRU list), and the minimal
number of least-recently-used tail nodes is evicted — each counted in
`evictions` — until the total is within the limit. -/
theorem cache_put_spec (cfg : LruCacheConfig) (hen : cfg.enabled = true)
    (ops : List CacheOp) (now : Nat) (key : CacheKey) (body ct : String) :
    sumSizes (cachePut now key body ct (runOps cfg ops)).lru_list
      ≤ (runOps cfg ops).config.max_size_bytes ∧
    ((runOps cfg ops).config.max_size_bytes < body.length →
      cachePut now key body ct (runOps cfg ops) = runOps cfg ops) ∧
    (body.length ≤ (runOps cfg ops).config.max_size_bytes →
      (cachePut now key body ct (runOps cfg ops)).lru_list.head?
          = some (key, mkEntry now body ct) ∧
      ∃ n, (cachePut now key body ct (runOps cfg ops)).lru_list
            = dropLastN n
                ((key, mkEntry now body ct) :: eraseKey (runOps cfg ops).lru_list key) ∧
        (cachePut now key body ct (runOps cfg ops)).evictions
            = (runOps cfg ops).evictions + n ∧
        ∀ j < n, (runOps cfg ops).config.max_size_bytes
            < sumSizes (dropLastN j
                ((key, mkEntry now body ct) :: eraseKey (runOps cfg ops).lru_list key))) := by
  set c := runOps cfg ops with hc
  have hwf : CacheWF c := wf_runOps cfg ops
  have hcen : c.config.enabled = true := by rw [hc, enabled_runOps, hen]
  by_cases hsize : c.config.max_size_bytes < body.length
  · have hnoop : cachePut now key body ct c = c := by
      unfold cachePut
      rw [hcen]
      simp only [Bool.not_true, Bool.false_eq_true, if_false]
      rw [if_pos (by omega)]
    refine ⟨by rw [hnoop]; exact hwf.2, fun _ => hnoop, fun hcon => ?_⟩
    omega
  · push_neg at hsize
    have hins : ∃ insTail,
        (key, mkEntry now body ct) :: eraseKey c.lru_list key
          = (key, mkEntry now body ct) :: insTail := ⟨_, rfl⟩
    have hput : ∀ r, r = evictLoop c.config.max_size_bytes
          ((key, mkEntry now body ct) :: eraseKey c.lru_list key)
          (sumSizes ((key, mkEntry now body ct) :: eraseKey c.lru_list key))
          c.evictions →
        cachePut now key body ct c =
          { c with lru_list := r.1, current_size_bytes := r.2.1, evictions := r.2.2 } := by
      intro r hr
      unfold cachePut
      rw [hcen]
      simp only [Bool.not_true, Bool.false_eq_true, if_false]
      rw [if_neg (by omega)]
      cases hf : findEntry c.lru_list key with
      | some old =>
        simp only []
        have hcur : c.current_size_bytes - old.size_bytes + body.length
            = sumSizes ((key, mkEntry now body ct) :: eraseKey c.lru_list key) := by
          have hs := sumSizes_eraseKey c.lru_list key old hf
          simp only [sumSizes, List.map_cons, List.sum_cons, mkEntry]
          have h1 := hwf.1
          unfold sumSizes at *
          omega
        rw [hcur, ← hr]
      | none =>
        simp only []
        have herase : eraseKey c.lru_list key = c.lru_list := eraseKey_of_none _ _ hf
        rw [herase] at hr
        have hcur : c.current_size_bytes + body.length
            = sumSizes ((key, mkEntry now body ct) :: c.lru_list) := by
          simp only [sumSizes, List.map_cons, List.sum_cons, mkEntry]
          have h1 := hwf.1
          unfold sumSizes at *
          omega
        rw [hcur, ← hr]
    obtain ⟨n, heq, hle, hj, hhd⟩ := evict_insert_spec c.config.max_size_bytes
      ((key, mkEntry now body ct) :: eraseKey c.lru_list key) c.evictions
      (key, mkEntry now body ct) rfl (by simpa [mkEntry] using hsize)
    have hbig := hput _ heq.symm
    rw [hbig]
    refine ⟨hle, fun hcon => by omega, fun _ => ⟨hhd, n, rfl, rfl, hj⟩⟩

/-- Witness for C4: a 3-byte cache holding a 2-byte entry accepts a second
2-byte entry by evicting the first; the new entry is most-recently-used and
exactly one eviction is counted. -/
theorem cache_put_spec_witness :
    sumSizes (cachePut 1 ⟨2⟩ "bc" "t2" (runOps cfgC4 opsC4)).lru_list
      ≤ (runOps cfgC4 opsC4).config.max_size_bytes ∧
    (cachePut 1 ⟨2⟩ "bc" "t2" (runOps cfgC4 opsC4)).lru_list.head?
      = some (⟨2⟩, mkEntry 1 "bc" "t2") ∧
    (cachePut 1 ⟨2⟩ "bc" "t2" (runOps cfgC4 opsC4)).evictions = 1 := by
  have h := cache_put_spec cfgC4 rfl opsC4 1 ⟨2⟩ "bc" "t2"
  have h3 := h.2.2 (by decide)
  refine ⟨h.1, h3.1, ?_⟩
  decide

/-- **C5**: on an enabled cache, `get` returns a fresh entry (age within
ttl) with its `hit_count` incremented and `last_access` set to now, and
counts a hit; returns none and counts a miss on an absent key; and on an
entry whose age exceeds the ttl it returns none, counts a miss and one
expiry, and removes the entry. -/
theorem cache_get_spec (now : Nat) (key : CacheKey) (c : LruCache)
    (hen : c.config.enabled = true)
    (hnd : (c.lru_list.map (fun p => p.1)).Nodup) :
    (∀ e, findEntry c.lru_list key = some e → now - e.created_at ≤ c.config.ttl →
      cacheGet now key c
        = (some { e with hit_count := e.hit_count + 1, last_access := now },
           { c with hits := c.hits + 1 })) ∧
    (findEntry c.lru_list key = none →
      cacheGet now key c = (none, { c with misses := c.misses + 1 })) ∧
    (∀ e, findEntry c.lru_list key = some e → c.config.ttl < now - e.created_at →
      (cacheGet now key c).1 = none ∧
      (cacheGet now key c).2.misses = c.misses + 1 ∧
      (cacheGet now key c).2.expired = c.expired + 1 ∧
      findEntry (cacheGet now key c).2.lru_list key = none) := by
  unfold cacheGet
  rw [hen]
  simp only [Bool.not_true, Bool.false_eq_true, if_false]
  refine ⟨?_, ?_, ?_⟩
  · intro e hf hfresh
    rw [hf]
    have hexpb : is_expired c.config now e = false := by
      simp only [is_expired, decide_eq_false_iff_not, not_lt]
      exact hfresh
    simp only [hexpb, Bool.false_eq_true, if_false]
  · intro hf
    rw [hf]
  · intro e hf hexp
    rw [hf]
    have hexpb : is_expired c.config now e = true := by
      simp only [is_expired, decide_eq_true_eq]
      exact hexp
    refine ⟨?_, ?_, ?_, ?_⟩ <;>
      (simp only [hexpb, if_true]
       try first
         | rfl
         | exact findEntry_eraseKey c.lru_list key hnd)

/-- Witness for C5 on a one-entry cache with ttl 10: a hit at time 3, a
miss on an absent key, and an expiry at time 11. -/
theorem cache_get_spec_witness :
    cacheGet 3 ⟨5⟩ stC5
      = (some { entC5 with hit_count := entC5.hit_count + 1, last_access := 3 },
         { stC5 with hits := stC5.hits + 1 }) ∧
    cacheGet 3 ⟨6⟩ stC5 = (none, { stC5 with misses := stC5.misses + 1 }) ∧
    (cacheGet 11 ⟨5⟩ stC5).1 = none ∧
    (cacheGet 11 ⟨5⟩ stC5).2.expired = stC5.expired + 1 := by
  have h3 := cache_get_spec 3 ⟨5⟩ stC5 rfl (by decide)
  have h6 := cache_get_spec 3 ⟨6⟩ stC5 rfl (by decide)
  have h11 := cache_get_spec 11 ⟨5⟩ stC5 rfl (by decide)
  exact ⟨h3.1 entC5 (by decide) (by decide), h6.2.1 (by decide),
    (h11.2.2 entC5 (by decide) (by decide)).1,
    (h11.2.2 entC5 (by decide) (by decide)).2.2.1⟩

/-- **C10**: on a disabled cache, `get` returns none with the whole state —
entries, sizes and all statistics counters — unchanged, and `put` is a
complete no-op. -/
theorem cache_disabled_noop (now : Nat) (key : CacheKey) (body ct : String)
    (c : LruCache) (hdis : c.config.enabled = false) :
    cacheGet now key c = (none, c) ∧ cachePut now key body ct c = c := by
  unfold cacheGet cachePut
  rw [hdis]
  simp

/-- Witness for C10 on a disabled one-entry cache. -/
theorem cache_disabled_noop_witness :
    cacheGet 3 ⟨5⟩ stDis = (none, stDis) ∧ cachePut 3 ⟨5⟩ "x" "t" stDis = stDis :=
  cache_disabled_noop 3 ⟨5⟩ "x" "t" stDis rfl

end Ntonix

namespace Ntonix

/-! ## Claim theorems: health tracker (C6, C7) -/

/-- **C6**: with the default thresholds (3 failures, 2 successes), a healthy
backend with zeroed counters survives two consecutive probe failures
unchanged in state, transitions to unhealthy on the third and fires the
callback with `(healthy, unhealthy)`; an unhealthy backend with zeroed
counters survives one success and transitions to healthy on the second;
every failure resets `consecutive_successes` and every success resets
`consecutive_failures`. -/
theorem health_hysteresis (b : BackendConfig) :
    ((handle_check_result defaultHealthConfig (freshHealth b) false).1.state
        = HealthState.healthy ∧
      (handle_check_result defaultHealthConfig (freshHealth b) false).2 = none) ∧
    ((handle_check_result defaultHealthConfig
        (handle_check_result defaultHealthConfig (freshHealth b) false).1 false).1.state
        = HealthState.healthy ∧
      (handle_check_result defaultHealthConfig
        (handle_check_result defaultHealthConfig (freshHealth b) false).1 false).2 = none) ∧
    ((handle_check_result defaultHealthConfig
        (handle_check_result defaultHealthConfig
          (handle_check_result defaultHealthConfig (freshHealth b) false).1 false).1
        false).1.state = HealthState.unhealthy ∧
      (handle_check_result defaultHealthConfig
        (handle_check_result defaultHealthConfig
          (handle_check_result defaultHealthConfig (freshHealth b) false).1 false).1
        false).2 = some (HealthState.healthy, HealthState.unhealthy)) ∧
    ((handle_check_result defaultHealthConfig
        { config := b, state := HealthState.unhealthy,
          consecutive_failures := 0, consecutive_successes := 0 } true).1.state
        = HealthState.unhealthy ∧
      (handle_check_result defaultHealthConfig
        { config := b, state := HealthState.unhealthy,
          consecutive_failures := 0, consecutive_successes := 0 } true).2 = none ∧
      (handle_check_result defaultHealthConfig
        (handle_check_result defaultHealthConfig
          { config := b, state := HealthState.unhealthy,
            consecutive_failures := 0, consecutive_successes := 0 } true).1 true).1.state
        = HealthState.healthy) ∧
    (∀ h : BackendHealth,
      (handle_check_result defaultHealthConfig h false).1.consecutive_successes = 0 ∧
      (handle_check_result defaultHealthConfig h true).1.consecutive_failures = 0) := by
  refine ⟨⟨rfl, rfl⟩, ⟨rfl, rfl⟩, ⟨rfl, rfl⟩, ⟨rfl, rfl, rfl⟩, ?_⟩
  intro h
  constructor
  · simp only [handle_check_result, Bool.false_eq_true, if_false]
    split
    · split
      · rfl
      · rfl
    · split
      · rfl
      · rfl
  · simp only [handle_check_result, eq_self_iff_true, if_true]
    split
    · split
      · rfl
      · rfl
    · split
      · rfl
      · rfl

theorem lookup_insertHealth :
    ∀ (m : List (String × BackendHealth)) (k : String) (v : BackendHealth) (q : String),
      lookupHealth (insertHealth m k v) q
        = if k = q then some v else lookupHealth m q := by
  intro m
  induction m with
  | nil =>
    intro k v q
    simp [insertHealth, lookupHealth]
  | cons p rest ih =>
    intro k v q
    obtain ⟨k', v'⟩ := p
    by_cases hk : k' = k
    · subst hk
      simp only [insertHealth, if_pos rfl]
      by_cases hq : k' = q
      · subst hq
        simp [lookupHealth]
      · simp [lookupHealth, hq]
    · simp only [insertHealth, if_neg hk]
      by_cases hq : k' = q
      · subst hq
        have hkq : k ≠ k' := fun hc => hk hc.symm
        simp [lookupHealth, hkq]
      · simp only [lookupHealth, if_neg hq]
        exact ih k v q

theorem set_backends_go (old : List (String × BackendHealth)) :
    ∀ (backends : List BackendConfig) (acc : List (String × BackendHealth)) (k : String),
      lookupHealth
        (backends.foldl
          (fun acc b =>
            match lookupHealth old (backend_key b) with
            | some h => insertHealth acc (backend_key b) { h with config := b }
            | none => insertHealth acc (backend_key b) (freshHealth b))
          acc) k
        = match findLastCfg backends k with
          | some b =>
            match lookupHealth old k with
            | some h => some { h with config := b }
            | none => some (freshHealth b)
          | none => lookupHealth acc k := by
  intro backends
  induction backends with
  | nil =>
    intro acc k
    rfl
  | cons b rest ih =>
    intro acc k
    rw [List.foldl_cons, ih]
    cases hlast : findLastCfg rest k with
    | some x => simp only [findLastCfg, hlast]
    | none =>
      simp only [findLastCfg, hlast]
      by_cases hbk : backend_key b = k
      · rw [if_pos hbk]
        cases hold : lookupHealth old (backend_key b) with
        | some h =>
          simp only [hold, lookup_insertHealth, if_pos hbk]
          rw [← hbk, hold]
        | none =>
          simp only [hold, lookup_insertHealth, if_pos hbk]
          rw [← hbk, hold]
      · rw [if_neg hbk]
        cases hold : lookupHealth old (backend_key b) with
        | some h => simp only [hold, lookup_insertHealth, if_neg hbk]
        | none => simp only [hold, lookup_insertHealth, if_neg hbk]

/-- **C7**: after `set_backends`, the record under any key is: the old
record with only its config refreshed when the key survives, a fresh
healthy record with zeroed counters when the key is new, and absent when
the key no longer appears in the new backend list. -/
theorem set_backends_preserves (old : List (String × BackendHealth))
    (backends : List BackendConfig) (k : String) :
    lookupHealth (set_backends old backends) k
      = match findLastCfg backends k with
        | some b =>
          match lookupHealth old k with
          | some h => some { h with config := b }
          | none => some (freshHealth b)
        | none => none := by
  unfold set_backends
  rw [set_backends_go old backends [] k]
  cases findLastCfg backends k <;> rfl

end Ntonix

namespace Ntonix

/-! ## Claim theorems: streaming classifier (C8) and routing (C9) -/

/-- **C8** (counterexample): a 206 response whose `Content-Type` contains
`text/event-stream` satisfies the claim's 2xx classification but the code
classifies it as not streaming — the code requires status exactly 200
(`http::status::ok`), not any 2xx. -/
theorem streaming_claim_false :
    is_streaming_response hdr206 = false ∧ claimStreaming hdr206 = true := by
  decide

/-- **C8** (amended): `is_streaming_response` returns true iff the status
is exactly 200 AND (`Content-Type` contains `text/event-stream`, or
`Transfer-Encoding` contains `chunked` and the `Content-Type` does not
contain `application/json`). -/
theorem streaming_amended (h : RespHeader) :
    is_streaming_response h = amendedStreaming h := by
  obtain ⟨st, ct, te⟩ := h
  unfold is_streaming_response amendedStreaming streamingContent
  by_cases hs : st = 200
  · subst hs
    simp only [ne_eq, not_true_eq_false, if_false, decide_True, Bool.true_and]
    cases ct with
    | none =>
      simp only [Bool.false_or]
      cases te with
      | none => simp
      | some te =>
        cases hte : strHasSub te "chunked" <;> simp [hte]
    | some ct =>
      cases hct : strHasSub ct "text/event-stream" with
      | true => simp [hct]
      | false =>
        simp only [hct, Bool.false_eq_true, if_false, Bool.false_or]
        cases te with
        | none => simp
        | some te =>
          cases hte : strHasSub te "chunked" with
          | false => simp [hte]
          | true =>
            cases hj : strHasSub ct "application/json" <;> simp [hte, hj]
  · simp [hs]

/-- **C9**: the gateway's request handler has no `/metrics` route — a GET
to `/metrics` falls through to the 404 branch for every cache-stats body
and chat-completions handler, where the spec (and the repository's own
README and PRD) promise a 200 counters JSON. -/
theorem metrics_route_missing (statsBody : String) (chat : HttpRequest → HttpResponse) :
    request_handler statsBody chat reqMetrics
      = { status := 404, content_type := "application/json",
          body := "\x7b\"error\": \"Not found\"\x7d", headers := [] } := by
  rfl

end Ntonix
